import Mathlib

/-!
Verification of the TGA codec in plug-ins/common/file-tga.c.

The development shallowly embeds the codec routines as executable Lean
functions over byte lists (a byte is a `Nat`, kept below 256 by explicit
`% 256` or by hypotheses where the C type system guarantees it).  A pixel
record of `bytes` bytes is a `List Nat` of that length, and a row is a
`List (List Nat)` of such records.  Fallible reads are modelled with
`Option` or explicit status flags mirroring the C return conventions.
-/

set_option maxRecDepth 10000

/-! ## RLE encoder (rle_write, file-tga.c lines 649-725)

The C routine walks the row comparing each pixel record with the next one
by `memcmp`, maintaining the counters `repeat` and `direct` and the
pointer `from` marking the start of the currently open run.  Here the open
run is carried explicitly: `pend` holds the records from `from` up to but
not including the current record `prev` (the record the C calls `buf`),
so the open run is `pend ++ [prev]`.  The C invariants are
`pend.length = rep + dir` and, in a repeat run, all records of
`pend ++ [prev]` are equal; the definition does not rely on them: every
emission copies the C byte-for-byte (`fwrite (from, bytes, k)` becomes
taking `k` records from `pend ++ [prev]` and flattening).
-/

/-- State-machine core of rle_write.  Arguments: repeat counter, direct
counter, records of the open run before the current one, current record,
remaining records of the row.  Returns the emitted byte stream. -/
def rleWriteGo : Nat → Nat → List (List Nat) → List Nat → List (List Nat) → List Nat
  | rep, dir, pend, prev, [] =>
    -- end of row: flush whichever run is open
    if rep ≠ 0 then
      (128 + rep) :: (pend ++ [prev]).headD []
    else
      dir :: ((pend ++ [prev]).take (dir + 1)).flatten
  | rep, dir, pend, prev, q :: rest =>
    if q ≠ prev then
      -- next pixel is different
      if rep ≠ 0 then
        ((128 + rep) :: (pend ++ [prev]).headD []) ++ rleWriteGo 0 0 [] q rest
      else if dir + 1 = 128 then
        -- direct += 1 and then the direct == 128 flush fires
        (127 :: ((pend ++ [prev] ++ [q]).take 128).flatten) ++ rleWriteGo 0 0 [] q rest
      else
        rleWriteGo rep (dir + 1) (pend ++ [prev]) q rest
    else
      -- next pixel is the same
      if dir ≠ 0 then
        ((dir - 1) :: ((pend ++ [prev]).take dir).flatten) ++ rleWriteGo 1 0 [prev] q rest
      else if rep + 1 = 128 then
        -- repeat += 1 and then the repeat == 128 flush fires (putc 255)
        (255 :: (pend ++ [prev] ++ [q]).headD []) ++ rleWriteGo 0 0 [] q rest
      else
        rleWriteGo (rep + 1) dir (pend ++ [prev]) q rest

/-- rle_write on a whole row of records.  The C is undefined for width 0
(it would flush one record from an empty buffer); the `[]` case only
covers the control byte it would emit. -/
def rle_write : List (List Nat) → List Nat
  | [] => [0]
  | p :: rest => rleWriteGo 0 0 [] p rest

/-! ## RLE decoder (rle_read, file-tga.c lines 727-782)

The C keeps `static` counters `repeat` and `direct` and a `static` 4-byte
`sample` across calls; `RleState` makes that cross-call state explicit
(only the first `info->bytes` bytes of the C array are ever read or
written, so `sample` is kept at that length).  The C returns `EOF` as
soon as a control byte or a record cannot be read, leaving the counters
as they were at that point; the partially filled output buffer keeps its
previous contents beyond what was written.
-/

/-- Cross-call state of rle_read: the static repeat and direct counters
and the current repeat sample record. -/
structure RleState where
  rep : Nat
  dir : Nat
  sample : List Nat
deriving DecidableEq, Repr

/-- Result of one rle_read call: the EOF status, the records written to
the output buffer, the state left in the static variables, and the bytes
left on the stream. -/
structure RleResult where
  eof : Bool
  out : List (List Nat)
  st : RleState
  rest : List Nat
deriving DecidableEq, Repr

/-- Loop body of rle_read over the remaining pixel count.  When both
counters are zero a control byte is fetched; a byte >= 128 starts a
repeat run (the following record is read into sample and emitted at
once, as in the C where the same iteration falls through to the
repeat > 0 branch), a byte < 128 starts a direct run whose first record
is read in the same iteration.  On a short read the call stops with
eof = true, leaving the counters exactly as the C statics would be. -/
def rleReadGo (bytes : Nat) : RleState → List Nat → Nat → RleResult
  | s, stream, 0 => ⟨false, [], s, stream⟩
  | s, stream, n + 1 =>
    if s.rep = 0 ∧ s.dir = 0 then
      match stream with
      | [] => ⟨true, [], s, stream⟩
      | head :: tail =>
        if 128 ≤ head then
          if bytes ≤ tail.length then
            let smp := tail.take bytes
            let r := rleReadGo bytes ⟨head - 128, 0, smp⟩ (tail.drop bytes) n
            ⟨r.eof, smp :: r.out, r.st, r.rest⟩
          else
            -- repeat was already set to head - 127 when the sample read fails
            ⟨true, [], ⟨head - 127, 0, s.sample⟩, tail.drop bytes⟩
        else
          if bytes ≤ tail.length then
            let r := rleReadGo bytes ⟨0, head, s.sample⟩ (tail.drop bytes) n
            ⟨r.eof, tail.take bytes :: r.out, r.st, r.rest⟩
          else
            -- direct was already set to head + 1 when the record read fails
            ⟨true, [], ⟨0, head + 1, s.sample⟩, tail.drop bytes⟩
    else if 0 < s.rep then
      let r := rleReadGo bytes ⟨s.rep - 1, s.dir, s.sample⟩ stream n
      ⟨r.eof, s.sample :: r.out, r.st, r.rest⟩
    else
      if bytes ≤ stream.length then
        let r := rleReadGo bytes ⟨s.rep, s.dir - 1, s.sample⟩ (stream.drop bytes) n
        ⟨r.eof, stream.take bytes :: r.out, r.st, r.rest⟩
      else
        ⟨true, [], s, stream.drop bytes⟩

/-- rle_read of one row from fresh static state, with the C status code
rendered as an Option: `none` is the EOF return, `some` gives the
`width` records written into the caller buffer. -/
def rle_read (bytes width : Nat) (stream : List Nat) : Option (List (List Nat)) :=
  let r := rleReadGo bytes ⟨0, 0, List.replicate bytes 0⟩ stream width
  if r.eof then none else some r.out

/-! ## Packet structure of an encoded stream (for the rle_write invariants)

A control byte c >= 128 declares a repeat packet of c - 127 pixels
(1..128 exactly when c <= 255) followed by one whole record; a control
byte c < 128 declares a direct packet of c + 1 pixels (always 1..128)
followed by c + 1 whole records.  `packetsOk` checks that a byte stream
is a concatenation of such packets, none of them truncated, so that no
packet boundary ever splits a pixel record. -/
def packetsOk (bytes : Nat) : List Nat → Bool
  | [] => true
  | c :: rest =>
    if 128 ≤ c then
      (decide (c ≤ 255) && decide (bytes ≤ rest.length)) && packetsOk bytes (rest.drop bytes)
    else
      decide ((c + 1) * bytes ≤ rest.length) && packetsOk bytes (rest.drop ((c + 1) * bytes))
termination_by stream => stream.length
decreasing_by
  all_goals simp [List.length_drop]
  all_goals omega

/-! ## read_line and the row loop of ReadImage (file-tga.c lines 929-979, 1127-1169)

read_line ignores the return value of rle_read (and of fread in the
uncompressed branch): on a short read the part of the shared row buffer
that was not overwritten keeps its previous contents and the loop in
ReadImage simply goes on with the next row.  The model below covers the
grayscale path (memcpy conversion) with flipHoriz clear, which is the
identity on the row bytes; the other conversion branches cannot fail
either, so error propagation is identical there. -/

/-- Result of one read_line call: the produced row, the RLE static state
and the remaining stream. -/
structure LineResult where
  row : List Nat
  st : RleState
  rest : List Nat
deriving DecidableEq, Repr

/-- read_line: fill the row buffer from the stream, via the RLE decoder
or a plain fread of width records.  Both calls discard the failure
status, exactly as the C does; bytes of the previous buffer content
survive past the point where the stream ran short. -/
def read_line (bytes width : Nat) (compRLE : Bool) (st : RleState)
    (buf stream : List Nat) : LineResult :=
  if compRLE then
    let r := rleReadGo bytes st stream width
    let written := r.out.flatten
    ⟨written ++ buf.drop written.length, r.st, r.rest⟩
  else
    let red := stream.take (width * bytes)
    ⟨red ++ buf.drop red.length, st, stream.drop (width * bytes)⟩

/-- The row loop of ReadImage (top-to-bottom case): height calls of
read_line, reusing the same row buffer, with no failure path at all. -/
def readRows (bytes width : Nat) (compRLE : Bool) :
    Nat → RleState → List Nat → List Nat → List (List Nat)
  | 0, _, _, _ => []
  | h + 1, st, buf, stream =>
    let r := read_line bytes width compRLE st buf stream
    r.row :: readRows bytes width compRLE h r.st r.row r.rest

/-! ## Footer / extension probe (load_image, file-tga.c lines 450-491) -/

/-- TRUEVISION-XFILE magic signature string. -/
def tgaMagic : List Nat :=
  [0x54, 0x52, 0x55, 0x45, 0x56, 0x49, 0x53, 0x49, 0x4f,
   0x4e, 0x2d, 0x58, 0x46, 0x49, 0x4c, 0x45, 0x2e, 0x0]

/-- Outcome of the footer probe: either fall through to reading the
header at offset 0, or abort load_image (the g_message / return NULL
paths). -/
inductive ProbeOutcome
  | proceed
  | abortLoad
deriving DecidableEq, Repr

/-- Little-endian extension offset from the first four footer bytes. -/
def footerOffset (footer : List Nat) : Nat :=
  footer.getD 0 0 + footer.getD 1 0 * 256 + footer.getD 2 0 * 65536 +
    footer.getD 3 0 * 16777216

/-- The probe itself.  fseek (fp, -26, SEEK_END) fails on files shorter
than 26 bytes, which skips the whole block; with the file present as a
byte list the footer fread then always succeeds, the magic is compared,
and a nonzero extension offset triggers a read of 495 bytes at that
offset which fails - fatally, returning NULL - when the file is too
short for it. -/
def footer_probe (file : List Nat) : ProbeOutcome :=
  if file.length < 26 then ProbeOutcome.proceed
  else
    let footer := file.drop (file.length - 26)
    if footer.drop 8 = tgaMagic then
      let off := footerOffset footer
      if off ≠ 0 then
        if off + 495 ≤ file.length then ProbeOutcome.proceed else ProbeOutcome.abortLoad
      else ProbeOutcome.proceed
    else ProbeOutcome.proceed

/-- After the probe, load_image seeks back to offset 0 and reads the
18-byte header; `none` is any return-NULL path. -/
def load_header (file : List Nat) : Option (List Nat) :=
  match footer_probe file with
  | ProbeOutcome.abortLoad => none
  | ProbeOutcome.proceed => if 18 ≤ file.length then some (file.take 18) else none

/-- A 26-byte file that is nothing but a valid footer whose extension
offset (1) points at a 495-byte block the file cannot contain. -/
def c3file : List Nat := [1, 0, 0, 0, 0, 0, 0, 0] ++ tgaMagic

/-! ## Header quirk corrections and sub-format validation
(load_image, file-tga.c lines 543-631) -/

/-- The three decoded image kinds (TGA_TYPE_MAPPED / COLOR / GRAY). -/
inductive TgaKind
  | mapped
  | truecolor
  | gray
deriving DecidableEq, Repr

/-- The two alpha-bits header quirk corrections (bugs #306675 and
#540969): alphaBits equal to bpp is forced to 0, then a zero alphaBits
is inferred as 8 for mapped/32-bit colormap, truecolor/32 bpp and
gray/16 bpp. -/
def applyQuirks (kind : TgaKind) (bpp alphaRaw cmapSize : Nat) : Nat :=
  let a1 := if alphaRaw = bpp then 0 else alphaRaw
  if a1 = 0 then
    if kind = TgaKind.mapped ∧ cmapSize = 32 then 8
    else if kind = TgaKind.truecolor ∧ bpp = 32 then 8
    else if kind = TgaKind.gray ∧ bpp = 16 then 8
    else a1
  else a1

/-- The plausible-but-unhandled check at line 608: bytes-per-pixel times
8 must give back bpp, except for the 15-bit case. -/
def bytesCheck (bpp : Nat) : Bool :=
  decide ((bpp + 7) / 8 * 8 = bpp) || decide (bpp = 15)

/-- Sub-format validation switch (lines 560-605) combined with the
bytesCheck, on the post-quirk alphaBits.  True means the load goes on. -/
def subformat_ok : TgaKind → Nat → Nat → Bool
  | TgaKind.mapped, bpp, _ => decide (bpp = 8) && bytesCheck bpp
  | TgaKind.truecolor, bpp, a =>
    (!((decide (bpp ≠ 15) && decide (bpp ≠ 16) && decide (bpp ≠ 24) && decide (bpp ≠ 32)) ||
       ((decide (bpp = 15) || decide (bpp = 24)) && decide (a ≠ 0)) ||
       (decide (bpp = 16) && decide (a ≠ 1) && decide (a ≠ 0)) ||
       (decide (bpp = 32) && decide (a ≠ 8)))) && bytesCheck bpp
  | TgaKind.gray, bpp, a =>
    (!(decide (bpp ≠ 8) && (decide (a ≠ 8) || (decide (bpp ≠ 16) && decide (bpp ≠ 15))))) &&
      bytesCheck bpp

/-- The acceptance table exactly as the specification words it. -/
def spec_table : TgaKind → Nat → Nat → Bool
  | TgaKind.mapped, bpp, _ => decide (bpp = 8)
  | TgaKind.truecolor, bpp, a =>
    (decide (bpp = 15) && decide (a = 0)) ||
    (decide (bpp = 16) && (decide (a = 0) || decide (a = 1))) ||
    (decide (bpp = 24) && decide (a = 0)) ||
    (decide (bpp = 32) && decide (a = 8))
  | TgaKind.gray, bpp, a =>
    decide (bpp = 8) || ((decide (bpp = 15) || decide (bpp = 16)) && decide (a = 8))

/-- Color-map-type check (lines 617-631): mapped images need type 1,
all others type 0. -/
def colorMapTypeOk (kind : TgaKind) (cmt : Nat) : Bool :=
  match kind with
  | TgaKind.mapped => decide (cmt = 1)
  | _ => decide (cmt = 0)

/-! ## Storage resolution for mapped images (ReadImage, lines 1000-1032) -/

/-- How a mapped (indexed) file is stored after ReadImage decides the
image/drawable type. -/
inductive MappedStorage
  | promotedRGBA
  | promotedRGB
  | stayIndexed
deriving DecidableEq, Repr

/-- The decision chain of ReadImage for TGA_TYPE_MAPPED. -/
def resolve_mapped (cmapSize cmapIndex cmapLength alphaBits : Nat) : MappedStorage :=
  if 24 < cmapSize then MappedStorage.promotedRGBA
  else if 256 < cmapIndex + cmapLength then MappedStorage.promotedRGB
  else if 0 < alphaBits then MappedStorage.promotedRGBA
  else MappedStorage.stayIndexed

/-- Bytes per palette entry of the table ReadImage allocates for each
outcome (convert_cmap with 4 or 3 channels, gimp_cmap with 3). -/
def mappedPaletteChannels : MappedStorage → Nat
  | MappedStorage.promotedRGBA => 4
  | MappedStorage.promotedRGB => 3
  | MappedStorage.stayIndexed => 3

/-! ## Colormap application (apply_colormap, file-tga.c lines 880-913)

The C computes `(*src - index)` in int arithmetic - negative when the
pixel byte is below colorMapIndex - scales it by the entry width and
indexes the converted colormap with no bounds check whatsoever.  The
embedding returns `none` exactly when the C would read outside the
table (undefined behavior). -/
def apply_colormap (alpha : Bool) (cmap : List Nat) (index : Nat) :
    List Nat → Option (List Nat)
  | [] => some []
  | p :: src =>
    let nb : Nat := if alpha then 4 else 3
    let base : Int := ((p : Int) - (index : Int)) * (nb : Int)
    if 0 ≤ base ∧ base.toNat + nb ≤ cmap.length then
      match apply_colormap alpha cmap index src with
      | some rest => some ((cmap.drop base.toNat).take nb ++ rest)
      | none => none
    else none

/-! ## 16/15-bit upsampling (upsample, file-tga.c lines 812-844)

Each channel byte is computed from the two little-endian source bytes
src[0] and src[1] as a 5-bit field shifted into the top five bits, then
incremented by its own top three bits (dest += dest >> 5).  The `% 256`
renders the guchar stores (the values never exceed 255, so they are
identities). -/

/-- dest[0] of upsample: the red channel, from src[1]. -/
def upsample_r (s1 : Nat) : Nat :=
  let d := (s1 <<< 1) &&& 0xf8
  (d + (d >>> 5)) % 256

/-- dest[1] of upsample: the green channel, from both source bytes. -/
def upsample_g (s0 s1 : Nat) : Nat :=
  let d := ((s0 &&& 0xe0) >>> 2) + ((s1 &&& 0x03) <<< 6)
  (d + (d >>> 5)) % 256

/-- dest[2] of upsample: the blue channel, from src[0]. -/
def upsample_b (s0 : Nat) : Nat :=
  let d := (s0 <<< 3) &&& 0xf8
  (d + (d >>> 5)) % 256

/-- One pixel of upsample, with the optional alpha byte from bit 15. -/
def upsamplePixel (s0 s1 : Nat) (alpha : Bool) : List Nat :=
  [upsample_r s1, upsample_g s0 s1, upsample_b s0] ++
    (if alpha then [if s1 &&& 0x80 ≠ 0 then 255 else 0] else [])

/-- The 5-bit red field of the 15/16-bit pixel (bits 10-14, i.e. bits
2-6 of src[1]). -/
def chanR (s1 : Nat) : Nat := (s1 >>> 2) &&& 0x1f

/-- The 5-bit green field (bits 5-9). -/
def chanG (s0 s1 : Nat) : Nat := ((s1 &&& 0x03) <<< 3) + (s0 >>> 5)

/-- The 5-bit blue field (bits 0-4). -/
def chanB (s0 : Nat) : Nat := s0 &&& 0x1f

/-- The bit-spread named by the specification: the 5-bit value placed in
the top five bits of the byte, plus its top three bits replicated into
the low three bits. -/
def spread5 (v : Nat) : Nat := (v <<< 3) + (v >>> 2)

/-! ## Indexed-with-alpha export (save_image, file-tga.c lines
1249-1258, 1339-1354 and 1384-1393) -/

/-- The num_colors real palette entries as written for INDEXEDA: each
GIMP RGB triple is emitted as B, G, R followed by the attribute byte
255 (fully opaque). -/
def paletteEntriesA (cmap : List Nat) : Nat → List Nat
  | 0 => []
  | i + 1 => paletteEntriesA cmap i ++
      [cmap.getD (3 * i + 2) 0, cmap.getD (3 * i + 1) 0, cmap.getD (3 * i) 0, 255]

/-- The whole INDEXEDA palette: the real entries followed by the extra
reserved entry, written as four zero bytes (so with attribute byte 0,
not 255). -/
def tgaPaletteIndexedA (cmap : List Nat) (n : Nat) : List Nat :=
  paletteEntriesA cmap n ++ [0, 0, 0, 0]

/-- header[5] for INDEXEDA: low byte of num_colors + 1. -/
def indexedAHeader5 (n : Nat) : Nat := (n + 1) % 256

/-- header[6] for INDEXEDA: high byte of num_colors + 1 (a guchar). -/
def indexedAHeader6 (n : Nat) : Nat := ((n + 1) / 256) % 256

/-- The colormap-length field a reader decodes from header[5]/header[6]. -/
def indexedACmapLenField (n : Nat) : Nat :=
  indexedAHeader5 n + 256 * indexedAHeader6 n

/-- One output byte of the INDEXEDA pixel loop: pixels with alpha above
127 keep their palette index, the rest are redirected to num_colors -
stored into a guchar, hence mod 256. -/
def indexedARowByte (n pidx pa : Nat) : Nat :=
  if 127 < pa then pidx else n % 256

/-- The whole INDEXEDA row conversion over width (index, alpha) pairs. -/
def indexedARow (n : Nat) (pixels : List Nat) (width : Nat) : List Nat :=
  (List.range width).map
    (fun i => indexedARowByte n (pixels.getD (2 * i) 0) (pixels.getD (2 * i + 1) 0))

/-! # Theorems -/

/-! ## C3: the footer / extension probe -/

/-- C3 counterexample: a file whose footer carries the magic signature
and a nonzero extension offset, but is too short for the 495-byte
extension block.  The claim says any failure of the probe is non-fatal;
in fact load_image aborts (returns NULL) here. -/
theorem footer_probe_fatal_counterexample :
    footer_probe c3file = ProbeOutcome.abortLoad ∧ load_header c3file = none := by
  constructor <;> rfl

/-- C3 amended: the probe is non-fatal exactly on the paths that skip
it - a file too short for a footer (the fseek failure), a footer
without the magic signature, or a zero extension offset - and on those
paths load_image re-seeks to offset 0 and reads the 18-byte header
normally. -/
theorem footer_probe_fallback (file : List Nat)
    (h : file.length < 26 ∨ (file.drop (file.length - 26)).drop 8 ≠ tgaMagic ∨
         footerOffset (file.drop (file.length - 26)) = 0) :
    footer_probe file = ProbeOutcome.proceed ∧
    (18 ≤ file.length → load_header file = some (file.take 18)) := by
  have hp : footer_probe file = ProbeOutcome.proceed := by
    unfold footer_probe
    rcases h with h | h | h
    · rw [if_pos h]
    · split_ifs <;> simp_all
    · split_ifs <;> simp_all
  refine ⟨hp, fun h18 => ?_⟩
  unfold load_header
  rw [hp]
  simp [h18]

/-- C3 witness: a 26-byte all-zero file has no magic, so the probe
falls back and the header is read at offset 0. -/
theorem footer_probe_fallback_witness :
    footer_probe (List.replicate 26 0) = ProbeOutcome.proceed ∧
    (18 ≤ (List.replicate 26 0).length →
      load_header (List.replicate 26 0) = some ((List.replicate 26 0).take 18)) :=
  footer_probe_fallback (List.replicate 26 0) (Or.inr (Or.inl (by decide)))

/-! ## C5: the sub-format acceptance table -/

lemma subformat_mapped_table :
    ∀ bpp < 256, ∀ a < 16,
      subformat_ok TgaKind.mapped bpp a = spec_table TgaKind.mapped bpp a := by decide

lemma subformat_truecolor_table :
    ∀ bpp < 256, ∀ a < 16,
      subformat_ok TgaKind.truecolor bpp a = spec_table TgaKind.truecolor bpp a := by decide

lemma subformat_gray_table :
    ∀ bpp < 256, ∀ a < 16,
      subformat_ok TgaKind.gray bpp a = spec_table TgaKind.gray bpp a := by decide

/-- C5: on the whole domain of the header fields (bpp a byte, alphaBits
a 4-bit field), the validation code accepts exactly the combinations of
the specification table - and it is a function of kind, bpp and
alphaBits alone. -/
theorem subformat_matches_table (k : TgaKind) (bpp a : Nat)
    (hb : bpp < 256) (ha : a < 16) :
    subformat_ok k bpp a = spec_table k bpp a := by
  cases k
  · exact subformat_mapped_table bpp hb a ha
  · exact subformat_truecolor_table bpp hb a ha
  · exact subformat_gray_table bpp hb a ha

/-- C5 witness at truecolor, 16 bpp, 1 alpha bit. -/
theorem subformat_matches_table_witness :
    subformat_ok TgaKind.truecolor 16 1 = spec_table TgaKind.truecolor 16 1 :=
  subformat_matches_table TgaKind.truecolor 16 1 (by decide) (by decide)

/-! ## C6: storage promotion for mapped images -/

/-- C6: a mapped image is promoted to direct color (RGB or RGBA)
exactly when colorMapEntrySize exceeds 24, or colorMapIndex +
colorMapLength exceeds 256, or the resolved alphaBits are nonzero;
otherwise it stays indexed with a 3-byte-per-entry palette.  In
particular 24-bit entries with colorMapLength 300 promote to direct
RGB. -/
theorem mapped_promotion (cs ci cl a : Nat) :
    ((24 < cs ∨ 256 < ci + cl ∨ 0 < a) →
      (resolve_mapped cs ci cl a = MappedStorage.promotedRGB ∨
       resolve_mapped cs ci cl a = MappedStorage.promotedRGBA) ∧
      resolve_mapped cs ci cl a ≠ MappedStorage.stayIndexed) ∧
    (¬(24 < cs ∨ 256 < ci + cl ∨ 0 < a) →
      resolve_mapped cs ci cl a = MappedStorage.stayIndexed ∧
      mappedPaletteChannels (resolve_mapped cs ci cl a) = 3) ∧
    resolve_mapped 24 0 300 0 = MappedStorage.promotedRGB := by
  refine ⟨fun h => ?_, fun h => ?_, by rfl⟩
  · unfold resolve_mapped
    split_ifs with h1 h2 h3 <;> simp_all
  · unfold resolve_mapped
    split_ifs with h1 h2 h3 <;> simp_all [mappedPaletteChannels]

/-- C6 witness: 32-bit palette entries force promotion away from
indexed storage. -/
theorem mapped_promotion_witness :
    resolve_mapped 32 0 10 0 ≠ MappedStorage.stayIndexed :=
  ((mapped_promotion 32 0 10 0).1 (Or.inl (by decide))).2

/-! ## C4: apply_colormap has no bounds check -/

/-- C4 (code bug): a header that passes every validation step - mapped,
8 bpp, colorMapType 1, 32-bit colormap entries (which the quirk
correction turns into alphaBits 8, promoting to RGBA), colorMapIndex 1,
colorMapLength 1 - reaches apply_colormap, and a pixel index byte 0
below colorMapIndex makes the C read cmap[(0 - 1) * 4] = cmap[-4],
outside the table =: `none`.  There is no IndexOutOfRange failure path
anywhere in the routine. -/
theorem apply_colormap_reads_out_of_bounds :
    applyQuirks TgaKind.mapped 8 0 32 = 8 ∧
    subformat_ok TgaKind.mapped 8 8 = true ∧
    colorMapTypeOk TgaKind.mapped 1 = true ∧
    resolve_mapped 32 1 1 8 = MappedStorage.promotedRGBA ∧
    apply_colormap true (List.replicate 4 99) 1 [0] = none := by
  refine ⟨by rfl, by rfl, by rfl, by rfl, by rfl⟩

/-! ## C9: upsample bit-spread, range and monotonicity -/

lemma shift1_and_f8 : ∀ x < 256, (x <<< 1) &&& 0xf8 = x / 4 % 32 * 8 := by decide

lemma shift3_and_f8 : ∀ x < 256, (x <<< 3) &&& 0xf8 = x % 32 * 8 := by decide

lemma nat_and_e0 : ∀ x < 256, x &&& 0xe0 = x / 32 * 32 := by decide

lemma nat_and_03 : ∀ x < 256, x &&& 0x03 = x % 4 := by decide

lemma nat_and_1f : ∀ x < 256, x &&& 0x1f = x % 32 := by decide

lemma upsample_r_spec : ∀ s1 < 256, upsample_r s1 = spread5 (chanR s1) := by
  intro s1 h1
  unfold upsample_r spread5 chanR
  rw [shift1_and_f8 s1 h1]
  simp only [Nat.shiftLeft_eq, Nat.shiftRight_eq_div_pow]
  rw [nat_and_1f (s1 / 2 ^ 2) (by omega)]
  have hc : s1 / 4 % 32 < 32 := by omega
  set c := s1 / 4 % 32 with hsc
  clear_value c
  interval_cases c <;> rfl

lemma upsample_g_spec : ∀ s0 < 256, ∀ s1 < 256, upsample_g s0 s1 = spread5 (chanG s0 s1) := by
  intro s0 h0 s1 h1
  unfold upsample_g spread5 chanG
  rw [nat_and_e0 s0 h0, nat_and_03 s1 h1]
  simp only [Nat.shiftLeft_eq, Nat.shiftRight_eq_div_pow]
  norm_num
  have ha : s0 / 32 < 8 := by omega
  have hb : s1 % 4 < 4 := by omega
  set a := s0 / 32 with hsa
  set b := s1 % 4 with hsb
  clear_value a b
  interval_cases a <;> interval_cases b <;> rfl

lemma upsample_b_spec : ∀ s0 < 256, upsample_b s0 = spread5 (chanB s0) := by
  intro s0 h0
  unfold upsample_b spread5 chanB
  rw [shift3_and_f8 s0 h0]
  rw [nat_and_1f s0 h0]
  simp only [Nat.shiftLeft_eq, Nat.shiftRight_eq_div_pow]
  have hc : s0 % 32 < 32 := by omega
  set c := s0 % 32 with hsc
  clear_value c
  interval_cases c <;> rfl

lemma spread5_props : ∀ v < 32, spread5 v ≤ 255 ∧ ∀ w ≤ v, spread5 w ≤ spread5 v := by decide

/-- C9: each of the three channel computations of upsample realizes the
bit-spread of its 5-bit field - the field in the top five bits plus the
top bits replicated into the low three - and that spread maps into
0..255 monotonically, with 0 at 0 and 255 at 31. -/
theorem upsample_monotone_range (s0 s1 v w : Nat)
    (h0 : s0 < 256) (h1 : s1 < 256) (hv : v < 32) (hw : w ≤ v) :
    upsample_r s1 = spread5 (chanR s1) ∧
    upsample_g s0 s1 = spread5 (chanG s0 s1) ∧
    upsample_b s0 = spread5 (chanB s0) ∧
    spread5 v ≤ 255 ∧ spread5 w ≤ spread5 v ∧
    spread5 0 = 0 ∧ spread5 31 = 255 :=
  ⟨upsample_r_spec s1 h1, upsample_g_spec s0 h0 s1 h1, upsample_b_spec s0 h0,
   (spread5_props v hv).1, (spread5_props v hv).2 w hw, by rfl, by rfl⟩

/-- C9 witness at mid-range values. -/
theorem upsample_monotone_range_witness :
    upsample_r 12 = spread5 (chanR 12) ∧
    upsample_g 7 12 = spread5 (chanG 7 12) ∧
    upsample_b 7 = spread5 (chanB 7) ∧
    spread5 31 ≤ 255 ∧ spread5 30 ≤ spread5 31 ∧
    spread5 0 = 0 ∧ spread5 31 = 255 :=
  upsample_monotone_range 7 12 31 30 (by decide) (by decide) (by decide) (by decide)

/-! ## C7: the INDEXEDA palette and pixel redirection -/

lemma paletteEntriesA_length (cmap : List Nat) :
    ∀ n, (paletteEntriesA cmap n).length = 4 * n := by
  intro n
  induction n with
  | zero => rfl
  | succ n ih => simp [paletteEntriesA, ih]; omega

lemma paletteEntriesA_alpha (cmap : List Nat) :
    ∀ n i, i < n → (paletteEntriesA cmap n).getD (4 * i + 3) 0 = 255 := by
  intro n
  induction n with
  | zero => intro i hi; omega
  | succ n ih =>
    intro i hi
    show (paletteEntriesA cmap n ++ _).getD (4 * i + 3) 0 = 255
    rcases Nat.lt_or_ge i n with h | h
    · rw [List.getD_append _ _ _ _ (by rw [paletteEntriesA_length]; omega)]
      exact ih i h
    · have hin : i = n := by omega
      subst hin
      rw [List.getD_append_right _ _ _ _ (by rw [paletteEntriesA_length]; omega)]
      rw [paletteEntriesA_length]
      have h3 : 4 * i + 3 - 4 * i = 3 := by omega
      rw [h3]
      rfl

/-- C7 counterexample: for a two-color palette the extra reserved entry
is written as the four bytes 0,0,0,0 - its attribute byte (position 11)
is 0, the transparent flag, not the opaque value 255 that every real
entry carries.  The claim calls the entry fully-opaque-flagged, which
is false. -/
theorem indexeda_opaque_flag_counterexample :
    tgaPaletteIndexedA [10, 20, 30, 40, 50, 60] 2 =
      [30, 20, 10, 255, 60, 50, 40, 255, 0, 0, 0, 0] ∧
    (tgaPaletteIndexedA [10, 20, 30, 40, 50, 60] 2).getD 11 0 = 0 ∧
    ¬ (tgaPaletteIndexedA [10, 20, 30, 40, 50, 60] 2).getD 11 0 = 255 := by
  refine ⟨by rfl, by rfl, by decide⟩

/-- C7 amended: the encoder writes one extra reserved slot after the
num_colors real entries, as an all-zero entry - attribute byte 0, that
is flagged fully transparent, where the real entries carry the opaque
attribute 255 - declares colormap length num_colors + 1 in the header,
and redirects every pixel with alpha at most 127 to the reserved index
num_colors while pixels with alpha above 127 keep their palette
index. -/
theorem indexeda_encoding (cmap : List Nat) (n pidx pa : Nat)
    (hn : n ≤ 255) (hc : cmap.length = 3 * n) :
    (tgaPaletteIndexedA cmap n).length = 4 * (n + 1) ∧
    (tgaPaletteIndexedA cmap n).drop (4 * n) = [0, 0, 0, 0] ∧
    (∀ i, i < n → (tgaPaletteIndexedA cmap n).getD (4 * i + 3) 0 = 255) ∧
    indexedACmapLenField n = n + 1 ∧
    (127 < pa → indexedARowByte n pidx pa = pidx) ∧
    (pa ≤ 127 → indexedARowByte n pidx pa = n) := by
  refine ⟨?_, ?_, ?_, ?_, ?_, ?_⟩
  · unfold tgaPaletteIndexedA
    rw [List.length_append, paletteEntriesA_length]
    simp; omega
  · unfold tgaPaletteIndexedA
    exact List.drop_left' (paletteEntriesA_length cmap n)
  · intro i hi
    unfold tgaPaletteIndexedA
    rw [List.getD_append _ _ _ _ (by rw [paletteEntriesA_length]; omega)]
    exact paletteEntriesA_alpha cmap n i hi
  · unfold indexedACmapLenField indexedAHeader5 indexedAHeader6
    omega
  · intro h
    unfold indexedARowByte
    rw [if_pos h]
  · intro h
    unfold indexedARowByte
    rw [if_neg (by omega)]
    omega

/-- C7 witness at a two-color palette. -/
theorem indexeda_encoding_witness :
    (tgaPaletteIndexedA [1, 2, 3, 4, 5, 6] 2).length = 4 * (2 + 1) ∧
    (tgaPaletteIndexedA [1, 2, 3, 4, 5, 6] 2).drop (4 * 2) = [0, 0, 0, 0] ∧
    (∀ i, i < 2 → (tgaPaletteIndexedA [1, 2, 3, 4, 5, 6] 2).getD (4 * i + 3) 0 = 255) ∧
    indexedACmapLenField 2 = 2 + 1 ∧
    (127 < 5 → indexedARowByte 2 1 5 = 1) ∧
    (5 ≤ 127 → indexedARowByte 2 1 5 = 2) :=
  indexeda_encoding [1, 2, 3, 4, 5, 6] 2 1 5 (by decide) (by decide)

/-! ## C10: the reserved transparent index and its 256-color wrap -/

/-- C10: a transparent pixel (alpha at most 127) is written as the byte
num_colors mod 256 while the header length field decodes to
num_colors + 1: with at most 255 colors that byte is exactly the index
of the reserved entry; with a full 256-color palette it wraps to 0,
aliasing palette entry 0, while the declared colormap length becomes
257. -/
theorem indexeda_reserved_index_wrap (n pidx pa : Nat) (hpa : pa ≤ 127) :
    indexedARowByte n pidx pa = n % 256 ∧
    (n ≤ 255 → indexedARowByte n pidx pa = n) ∧
    (n = 256 → indexedARowByte n pidx pa = 0 ∧ indexedACmapLenField n = 257) ∧
    (n ≤ 256 → indexedACmapLenField n = n + 1) := by
  unfold indexedARowByte indexedACmapLenField indexedAHeader5 indexedAHeader6
  rw [if_neg (by omega)]
  refine ⟨rfl, fun h => by omega, fun h => ⟨by omega, by omega⟩, fun h => by omega⟩

/-- C10 witness at the full 256-color palette. -/
theorem indexeda_reserved_index_wrap_witness :
    indexedARowByte 256 3 0 = 256 % 256 ∧
    (256 ≤ 255 → indexedARowByte 256 3 0 = 256) ∧
    (256 = 256 → indexedARowByte 256 3 0 = 0 ∧ indexedACmapLenField 256 = 257) ∧
    (256 ≤ 256 → indexedACmapLenField 256 = 256 + 1) :=
  indexeda_reserved_index_wrap 256 3 0 (by decide)

/-! ## C1/C8: RLE round trip - decoder composition lemmas -/

lemma rleReadGo_rep (bytes : Nat) :
    ∀ (r m : Nat) (s stream : List Nat),
    rleReadGo bytes ⟨r, 0, s⟩ stream (r + m)
      = ⟨(rleReadGo bytes ⟨0, 0, s⟩ stream m).eof,
         List.replicate r s ++ (rleReadGo bytes ⟨0, 0, s⟩ stream m).out,
         (rleReadGo bytes ⟨0, 0, s⟩ stream m).st,
         (rleReadGo bytes ⟨0, 0, s⟩ stream m).rest⟩ := by
  intro r
  induction r with
  | zero =>
    intro m s stream
    simp [Nat.zero_add]
  | succ r ih =>
    intro m s stream
    have hc : r + 1 + m = (r + m) + 1 := by omega
    rw [hc]
    have hstep : rleReadGo bytes ⟨r + 1, 0, s⟩ stream ((r + m) + 1)
        = ⟨(rleReadGo bytes ⟨r, 0, s⟩ stream (r + m)).eof,
           s :: (rleReadGo bytes ⟨r, 0, s⟩ stream (r + m)).out,
           (rleReadGo bytes ⟨r, 0, s⟩ stream (r + m)).st,
           (rleReadGo bytes ⟨r, 0, s⟩ stream (r + m)).rest⟩ := by
      simp only [rleReadGo]
      norm_num
    rw [hstep, ih]
    simp [List.replicate_succ]

lemma rleReadGo_dir (bytes : Nat) :
    ∀ (L : List (List Nat)) (m : Nat) (s rest : List Nat),
    (∀ r ∈ L, r.length = bytes) →
    rleReadGo bytes ⟨0, L.length, s⟩ (L.flatten ++ rest) (L.length + m)
      = ⟨(rleReadGo bytes ⟨0, 0, s⟩ rest m).eof,
         L ++ (rleReadGo bytes ⟨0, 0, s⟩ rest m).out,
         (rleReadGo bytes ⟨0, 0, s⟩ rest m).st,
         (rleReadGo bytes ⟨0, 0, s⟩ rest m).rest⟩ := by
  intro L
  induction L with
  | nil =>
    intro m s rest h
    simp
  | cons a L ih =>
    intro m s rest h
    have ha : a.length = bytes := h a (List.mem_cons_self a L)
    have hL : ∀ r ∈ L, r.length = bytes := fun r hr => h r (List.mem_cons_of_mem a hr)
    have hc : (a :: L).length + m = (L.length + m) + 1 := by simp [Nat.succ_add]
    have hflat : (a :: L).flatten ++ rest = a ++ (L.flatten ++ rest) := by simp
    rw [hc, hflat]
    have hlen : bytes ≤ (a ++ (L.flatten ++ rest)).length := by
      rw [List.length_append, ha]; omega
    have hstep : rleReadGo bytes ⟨0, (a :: L).length, s⟩ (a ++ (L.flatten ++ rest)) ((L.length + m) + 1)
        = ⟨(rleReadGo bytes ⟨0, L.length, s⟩ (L.flatten ++ rest) (L.length + m)).eof,
           a :: (rleReadGo bytes ⟨0, L.length, s⟩ (L.flatten ++ rest) (L.length + m)).out,
           (rleReadGo bytes ⟨0, L.length, s⟩ (L.flatten ++ rest) (L.length + m)).st,
           (rleReadGo bytes ⟨0, L.length, s⟩ (L.flatten ++ rest) (L.length + m)).rest⟩ := by
      simp only [rleReadGo, List.length_cons]
      norm_num [hlen, List.take_left' ha, List.drop_left' ha]
      intro hx
      exfalso
      rw [List.length_append, List.length_append, List.length_flatten] at hlen
      omega
    rw [hstep, ih m s rest hL]
    simp

lemma rleReadGo_reppacket (bytes : Nat) (k m : Nat) (s0 sample rest : List Nat)
    (hk1 : 1 ≤ k) (hs : sample.length = bytes) :
    rleReadGo bytes ⟨0, 0, s0⟩ ((127 + k) :: (sample ++ rest)) (k + m)
      = ⟨(rleReadGo bytes ⟨0, 0, sample⟩ rest m).eof,
         List.replicate k sample ++ (rleReadGo bytes ⟨0, 0, sample⟩ rest m).out,
         (rleReadGo bytes ⟨0, 0, sample⟩ rest m).st,
         (rleReadGo bytes ⟨0, 0, sample⟩ rest m).rest⟩ := by
  obtain ⟨j, rfl⟩ : ∃ j, k = j + 1 := ⟨k - 1, by omega⟩
  have hc : j + 1 + m = (j + m) + 1 := by omega
  rw [hc]
  have hhead : 128 ≤ 127 + (j + 1) := by omega
  have hlen : bytes ≤ (sample ++ rest).length := by
    rw [List.length_append, hs]; omega
  have hsub : 127 + (j + 1) - 128 = j := by omega
  have hstep : rleReadGo bytes ⟨0, 0, s0⟩ ((127 + (j + 1)) :: (sample ++ rest)) ((j + m) + 1)
      = ⟨(rleReadGo bytes ⟨j, 0, sample⟩ rest (j + m)).eof,
         sample :: (rleReadGo bytes ⟨j, 0, sample⟩ rest (j + m)).out,
         (rleReadGo bytes ⟨j, 0, sample⟩ rest (j + m)).st,
         (rleReadGo bytes ⟨j, 0, sample⟩ rest (j + m)).rest⟩ := by
    simp only [rleReadGo]
    norm_num [hhead, hlen, hsub, List.take_left' hs, List.drop_left' hs]
    intro hx
    exfalso
    omega
  rw [hstep, rleReadGo_rep bytes j m sample rest]
  simp [List.replicate_succ]

lemma rleReadGo_dirpacket (bytes : Nat) (m : Nat) (s0 rest : List Nat) (L : List (List Nat))
    (h1 : 1 ≤ L.length) (h128 : L.length ≤ 128) (hL : ∀ r ∈ L, r.length = bytes) :
    rleReadGo bytes ⟨0, 0, s0⟩ ((L.length - 1) :: (L.flatten ++ rest)) (L.length + m)
      = ⟨(rleReadGo bytes ⟨0, 0, s0⟩ rest m).eof,
         L ++ (rleReadGo bytes ⟨0, 0, s0⟩ rest m).out,
         (rleReadGo bytes ⟨0, 0, s0⟩ rest m).st,
         (rleReadGo bytes ⟨0, 0, s0⟩ rest m).rest⟩ := by
  obtain ⟨a, T, rfl⟩ : ∃ a T, L = a :: T := by
    cases L with
    | nil => simp at h1
    | cons a T => exact ⟨a, T, rfl⟩
  have ha : a.length = bytes := hL a (List.mem_cons_self a T)
  have hT : ∀ r ∈ T, r.length = bytes := fun r hr => hL r (List.mem_cons_of_mem a hr)
  have hc : (a :: T).length + m = (T.length + m) + 1 := by simp [Nat.succ_add]
  have hhd : (a :: T).length - 1 = T.length := by simp
  have hT128 : ¬ 128 ≤ T.length := by simp at h128; omega
  have hflat : (a :: T).flatten ++ rest = a ++ (T.flatten ++ rest) := by simp
  rw [hc, hhd, hflat]
  have hlen : bytes ≤ (a ++ (T.flatten ++ rest)).length := by
    rw [List.length_append, ha]; omega
  have hstep : rleReadGo bytes ⟨0, 0, s0⟩ (T.length :: (a ++ (T.flatten ++ rest))) ((T.length + m) + 1)
      = ⟨(rleReadGo bytes ⟨0, T.length, s0⟩ (T.flatten ++ rest) (T.length + m)).eof,
         a :: (rleReadGo bytes ⟨0, T.length, s0⟩ (T.flatten ++ rest) (T.length + m)).out,
         (rleReadGo bytes ⟨0, T.length, s0⟩ (T.flatten ++ rest) (T.length + m)).st,
         (rleReadGo bytes ⟨0, T.length, s0⟩ (T.flatten ++ rest) (T.length + m)).rest⟩ := by
    simp only [rleReadGo]
    norm_num [hT128, hlen, List.take_left' ha, List.drop_left' ha]
    intro hx
    exfalso
    rw [List.length_append, List.length_append, List.length_flatten] at hlen
    omega
  rw [hstep, rleReadGo_dir bytes T m s0 rest hT]
  simp

/-! ## Branch equations for the encoder -/

lemma rleWriteGo_nil_rep (rep dir : Nat) (pend : List (List Nat)) (prev : List Nat)
    (hrep : rep ≠ 0) :
    rleWriteGo rep dir pend prev [] = (128 + rep) :: (pend ++ [prev]).headD [] := by
  simp only [rleWriteGo]
  rw [if_pos hrep]

lemma rleWriteGo_nil_dir (rep dir : Nat) (pend : List (List Nat)) (prev : List Nat)
    (hrep : rep = 0) :
    rleWriteGo rep dir pend prev [] = dir :: ((pend ++ [prev]).take (dir + 1)).flatten := by
  simp only [rleWriteGo]
  rw [if_neg (by omega)]

lemma rleWriteGo_cons_diff_rep (rep dir : Nat) (pend : List (List Nat)) (prev q : List Nat)
    (rest : List (List Nat)) (hq : q ≠ prev) (hrep : rep ≠ 0) :
    rleWriteGo rep dir pend prev (q :: rest)
      = ((128 + rep) :: (pend ++ [prev]).headD []) ++ rleWriteGo 0 0 [] q rest := by
  simp only [rleWriteGo]
  rw [if_pos hq, if_pos hrep]

lemma rleWriteGo_cons_diff_128 (rep dir : Nat) (pend : List (List Nat)) (prev q : List Nat)
    (rest : List (List Nat)) (hq : q ≠ prev) (hrep : rep = 0) (h128 : dir + 1 = 128) :
    rleWriteGo rep dir pend prev (q :: rest)
      = (127 :: ((pend ++ [prev] ++ [q]).take 128).flatten) ++ rleWriteGo 0 0 [] q rest := by
  simp only [rleWriteGo]
  rw [if_pos hq, if_neg (by omega), if_pos h128]

lemma rleWriteGo_cons_diff (rep dir : Nat) (pend : List (List Nat)) (prev q : List Nat)
    (rest : List (List Nat)) (hq : q ≠ prev) (hrep : rep = 0) (h128 : dir + 1 ≠ 128) :
    rleWriteGo rep dir pend prev (q :: rest)
      = rleWriteGo rep (dir + 1) (pend ++ [prev]) q rest := by
  simp only [rleWriteGo]
  rw [if_pos hq, if_neg (by omega), if_neg h128]

lemma rleWriteGo_cons_same_dir (rep dir : Nat) (pend : List (List Nat)) (prev q : List Nat)
    (rest : List (List Nat)) (hq : q = prev) (hdir : dir ≠ 0) :
    rleWriteGo rep dir pend prev (q :: rest)
      = ((dir - 1) :: ((pend ++ [prev]).take dir).flatten) ++ rleWriteGo 1 0 [prev] q rest := by
  simp only [rleWriteGo]
  rw [if_neg (by simp [hq]), if_pos hdir]

lemma rleWriteGo_cons_same_128 (rep dir : Nat) (pend : List (List Nat)) (prev q : List Nat)
    (rest : List (List Nat)) (hq : q = prev) (hdir : dir = 0) (h128 : rep + 1 = 128) :
    rleWriteGo rep dir pend prev (q :: rest)
      = (255 :: (pend ++ [prev] ++ [q]).headD []) ++ rleWriteGo 0 0 [] q rest := by
  simp only [rleWriteGo]
  rw [if_neg (by simp [hq]), if_neg (by omega), if_pos h128]

lemma rleWriteGo_cons_same (rep dir : Nat) (pend : List (List Nat)) (prev q : List Nat)
    (rest : List (List Nat)) (hq : q = prev) (hdir : dir = 0) (h128 : rep + 1 ≠ 128) :
    rleWriteGo rep dir pend prev (q :: rest)
      = rleWriteGo (rep + 1) dir (pend ++ [prev]) q rest := by
  simp only [rleWriteGo]
  rw [if_neg (by simp [hq]), if_neg (by omega), if_neg h128]

lemma headD_replicate (n : Nat) (p : List Nat) :
    (List.replicate (n + 1) p).headD [] = p := by
  simp [List.replicate_succ]

lemma headD_replicate_append (n : Nat) (p : List Nat) (l : List (List Nat)) :
    (List.replicate (n + 1) p ++ l).headD [] = p := by
  simp [List.replicate_succ]

lemma rle_write_read_aux (bytes : Nat) (hb : 1 ≤ bytes) :
    ∀ (rest : List (List Nat)) (rep dir : Nat) (pend : List (List Nat)) (prev s0 : List Nat),
    (∀ r ∈ pend, r.length = bytes) → prev.length = bytes → (∀ r ∈ rest, r.length = bytes) →
    pend.length = rep + dir → (rep = 0 ∨ dir = 0) → rep ≤ 127 → dir ≤ 127 →
    (rep ≠ 0 → ∀ r ∈ pend, r = prev) →
    ∃ s1, rleReadGo bytes ⟨0, 0, s0⟩ (rleWriteGo rep dir pend prev rest)
            (pend.length + 1 + rest.length)
      = ⟨false, pend ++ prev :: rest, ⟨0, 0, s1⟩, []⟩ := by
  intro rest
  induction rest with
  | nil =>
    intro rep dir pend prev s0 hpl hprev hrl hlen hrd hr7 hd7 hre
    by_cases hrep : rep = 0
    · -- final direct flush
      subst hrep
      have hpd : pend.length = dir := by omega
      refine ⟨s0, ?_⟩
      rw [rleWriteGo_nil_dir 0 dir pend prev rfl]
      have htake : (pend ++ [prev]).take (dir + 1) = pend ++ [prev] := by
        apply List.take_of_length_le
        simp [hpd]
      rw [htake]
      have hpkt := rleReadGo_dirpacket bytes 0 s0 [] (pend ++ [prev])
        (by simp) (by simp only [List.length_append, List.length_singleton] <;> omega)
        (by
          intro r hr
          rcases List.mem_append.1 hr with h | h
          · exact hpl r h
          · simp at h; subst h; exact hprev)
      rw [List.append_nil] at hpkt
      have hhd : (pend ++ [prev]).length - 1 = dir := by
        simp only [List.length_append, List.length_singleton]; omega
      have hcount : (pend ++ [prev]).length + 0
          = pend.length + 1 + ([] : List (List Nat)).length := by simp
      rw [hhd, hcount] at hpkt
      rw [hpkt]
      simp [rleReadGo]
    · -- final repeat flush
      have hdir : dir = 0 := by rcases hrd with h | h <;> omega
      have hpd : pend.length = rep := by omega
      have hall : ∀ r ∈ pend, r = prev := hre hrep
      have hpendr : pend = List.replicate rep prev := by
        have h2 := List.eq_replicate_of_mem hall
        rwa [hpd] at h2
      have hrun : pend ++ [prev] = List.replicate (rep + 1) prev := by
        rw [List.replicate_succ', hpendr]
      refine ⟨prev, ?_⟩
      rw [rleWriteGo_nil_rep rep dir pend prev hrep]
      have hhd : (pend ++ [prev]).headD [] = prev := by
        rw [hrun, headD_replicate]
      rw [hhd]
      have hpkt := rleReadGo_reppacket bytes (rep + 1) 0 s0 prev [] (by omega) hprev
      rw [List.append_nil] at hpkt
      rw [show (127 + (rep + 1)) = 128 + rep from by omega] at hpkt
      rw [show (rep + 1) + 0 = pend.length + 1 + ([] : List (List Nat)).length from by
        simp only [List.length_nil] <;> omega] at hpkt
      rw [hpkt]
      simp [rleReadGo, hpendr, List.replicate_succ']
  | cons q rest ih =>
    intro rep dir pend prev s0 hpl hprev hrl hlen hrd hr7 hd7 hre
    have hq2 : q.length = bytes := hrl q (List.mem_cons_self q rest)
    have hrl2 : ∀ r ∈ rest, r.length = bytes := fun r hr => hrl r (List.mem_cons_of_mem q hr)
    have hplprev : ∀ r ∈ pend ++ [prev], r.length = bytes := by
      intro r hr
      rcases List.mem_append.1 hr with h | h
      · exact hpl r h
      · simp at h; subst h; exact hprev
    by_cases hq : q = prev
    · by_cases hdir : dir = 0
      · by_cases h128 : rep + 1 = 128
        · -- repeat counter hits 128: putc 255 and keep the current pixel pending
          have hpd : pend.length = rep := by omega
          have hall : ∀ r ∈ pend, r = prev := hre (by omega)
          have hpendr : pend = List.replicate rep prev := by
            have h2 := List.eq_replicate_of_mem hall
            rwa [hpd] at h2
          have hrun : pend ++ [prev] = List.replicate (rep + 1) prev := by
            rw [List.replicate_succ', hpendr]
          obtain ⟨s1, hIH⟩ := ih 0 0 [] q prev (by simp) hq2 hrl2 (by simp) (Or.inl rfl)
            (by omega) (by omega) (by simp)
          refine ⟨s1, ?_⟩
          rw [rleWriteGo_cons_same_128 rep dir pend prev q rest hq hdir h128]
          have hhd : (pend ++ [prev] ++ [q]).headD [] = prev := by
            rw [hrun, headD_replicate_append]
          rw [hhd, List.cons_append]
          rw [show pend.length + 1 + (q :: rest).length
              = (rep + 1) + (([] : List (List Nat)).length + 1 + rest.length) from by
            simp only [List.length_cons, List.length_nil] <;> omega]
          rw [show (255 : Nat) = 127 + (rep + 1) from by omega]
          rw [rleReadGo_reppacket bytes (rep + 1)
            (([] : List (List Nat)).length + 1 + rest.length)
            s0 prev (rleWriteGo 0 0 [] q rest) (by omega) hprev]
          rw [hIH]
          simp [hpendr, List.replicate_succ']
        · -- same pixel, repeat grows
          obtain ⟨s1, hIH⟩ := ih (rep + 1) dir (pend ++ [prev]) q s0 hplprev hq2 hrl2
            (by simp only [List.length_append, List.length_singleton] <;> omega)
            (Or.inr hdir) (by omega) (by omega)
            (fun _ => by
              intro r hr
              rcases List.mem_append.1 hr with h | h
              · rcases Nat.eq_zero_or_pos rep with h0 | h0
                · have hnil : pend = [] := by
                    apply List.eq_nil_of_length_eq_zero; omega
                  rw [hnil] at h; simp at h
                · exact (hre (by omega) r h).trans hq.symm
              · simp at h; subst h; exact hq.symm)
          refine ⟨s1, ?_⟩
          rw [rleWriteGo_cons_same rep dir pend prev q rest hq hdir h128]
          rw [show pend.length + 1 + (q :: rest).length
              = (pend ++ [prev]).length + 1 + rest.length from by
            simp only [List.length_cons, List.length_nil, List.length_append,
              List.length_singleton] <;> omega]
          rw [hIH]
          simp
      · -- same pixel closing a direct run
        have hrep : rep = 0 := by rcases hrd with h | h <;> omega
        have hpd : pend.length = dir := by omega
        obtain ⟨s1, hIH⟩ := ih 1 0 [prev] q s0
          (by intro r hr; simp at hr; subst hr; exact hprev)
          hq2 hrl2 (by simp) (Or.inr rfl) (by omega) (by omega)
          (fun _ => by intro r hr; simp at hr; subst hr; exact hq.symm)
        refine ⟨s1, ?_⟩
        rw [rleWriteGo_cons_same_dir rep dir pend prev q rest hq hdir]
        have htake : (pend ++ [prev]).take dir = pend := List.take_left' hpd
        rw [htake, List.cons_append]
        rw [show pend.length + 1 + (q :: rest).length
            = pend.length + (([prev] : List (List Nat)).length + 1 + rest.length) from by
          simp only [List.length_cons, List.length_nil, List.length_singleton] <;> omega]
        rw [show dir - 1 = pend.length - 1 from by omega]
        rw [rleReadGo_dirpacket bytes (([prev] : List (List Nat)).length + 1 + rest.length) s0
          (rleWriteGo 1 0 [prev] q rest) pend (by omega) (by omega) hpl]
        rw [hIH]
        simp
    · by_cases hrep : rep = 0
      · by_cases h128 : dir + 1 = 128
        · -- direct counter hits 128: putc 127 and keep the current pixel pending
          have hpd : pend.length = dir := by omega
          obtain ⟨s1, hIH⟩ := ih 0 0 [] q s0 (by simp) hq2 hrl2 (by simp) (Or.inl rfl)
            (by omega) (by omega) (by simp)
          refine ⟨s1, ?_⟩
          rw [rleWriteGo_cons_diff_128 rep dir pend prev q rest hq hrep h128]
          have hlen2 : (pend ++ [prev]).length = 128 := by
            simp only [List.length_append, List.length_singleton]; omega
          have htake : (pend ++ [prev] ++ [q]).take 128 = pend ++ [prev] :=
            List.take_left' hlen2
          rw [htake, List.cons_append]
          rw [show pend.length + 1 + (q :: rest).length
              = (pend ++ [prev]).length + (([] : List (List Nat)).length + 1 + rest.length)
              from by
            simp only [List.length_cons, List.length_nil, List.length_append,
              List.length_singleton] <;> omega]
          rw [show (127 : Nat) = (pend ++ [prev]).length - 1 from by omega]
          rw [rleReadGo_dirpacket bytes (([] : List (List Nat)).length + 1 + rest.length) s0
            (rleWriteGo 0 0 [] q rest) (pend ++ [prev]) (by omega) (by omega) hplprev]
          rw [hIH]
          simp
        · -- different pixel, direct grows
          obtain ⟨s1, hIH⟩ := ih rep (dir + 1) (pend ++ [prev]) q s0 hplprev hq2 hrl2
            (by simp only [List.length_append, List.length_singleton] <;> omega)
            (Or.inl hrep) (by omega) (by omega)
            (fun h0 => absurd hrep h0)
          refine ⟨s1, ?_⟩
          rw [rleWriteGo_cons_diff rep dir pend prev q rest hq hrep h128]
          rw [show pend.length + 1 + (q :: rest).length
              = (pend ++ [prev]).length + 1 + rest.length from by
            simp only [List.length_cons, List.length_nil, List.length_append,
              List.length_singleton] <;> omega]
          rw [hIH]
          simp
      · -- different pixel closing a repeat run
        have hdir : dir = 0 := by rcases hrd with h | h <;> omega
        have hpd : pend.length = rep := by omega
        have hall : ∀ r ∈ pend, r = prev := hre hrep
        have hpendr : pend = List.replicate rep prev := by
          have h2 := List.eq_replicate_of_mem hall
          rwa [hpd] at h2
        have hrun : pend ++ [prev] = List.replicate (rep + 1) prev := by
          rw [List.replicate_succ', hpendr]
        obtain ⟨s1, hIH⟩ := ih 0 0 [] q prev (by simp) hq2 hrl2 (by simp) (Or.inl rfl)
          (by omega) (by omega) (by simp)
        refine ⟨s1, ?_⟩
        rw [rleWriteGo_cons_diff_rep rep dir pend prev q rest hq hrep]
        have hhd : (pend ++ [prev]).headD [] = prev := by rw [hrun, headD_replicate]
        rw [hhd, List.cons_append]
        rw [show pend.length + 1 + (q :: rest).length
            = (rep + 1) + (([] : List (List Nat)).length + 1 + rest.length) from by
          simp only [List.length_cons, List.length_nil] <;> omega]
        rw [show (128 + rep) = 127 + (rep + 1) from by omega]
        rw [rleReadGo_reppacket bytes (rep + 1)
          (([] : List (List Nat)).length + 1 + rest.length)
          s0 prev (rleWriteGo 0 0 [] q rest) (by omega) hprev]
        rw [hIH]
        simp [hpendr, List.replicate_succ']

/-- C1: for every row of width at least 1 with record size 1..4 bytes,
decoding the byte stream produced by rle_write returns exactly the
original row (rle_read succeeds, consuming the whole stream). -/
theorem rle_roundtrip (bytes : Nat) (row : List (List Nat))
    (hb1 : 1 ≤ bytes) (hb4 : bytes ≤ 4) (hw : 1 ≤ row.length)
    (hlen : ∀ r ∈ row, r.length = bytes) :
    rle_read bytes row.length (rle_write row) = some row := by
  obtain ⟨p, rest, rfl⟩ : ∃ p rest, row = p :: rest := by
    cases row with
    | nil => simp at hw
    | cons p rest => exact ⟨p, rest, rfl⟩
  have hp : p.length = bytes := hlen p (List.mem_cons_self p rest)
  have hrl : ∀ r ∈ rest, r.length = bytes := fun r hr => hlen r (List.mem_cons_of_mem p hr)
  obtain ⟨s1, hmain⟩ := rle_write_read_aux bytes hb1 rest 0 0 [] p (List.replicate bytes 0)
    (by simp) hp hrl (by simp) (Or.inl rfl) (by omega) (by omega) (by simp)
  simp only [rle_read, rle_write]
  rw [show (p :: rest).length = ([] : List (List Nat)).length + 1 + rest.length from by
    simp only [List.length_cons, List.length_nil] <;> omega]
  rw [hmain]
  simp

/-- C1 witness on a small mixed row of 1-byte records. -/
theorem rle_roundtrip_witness :
    rle_read 1 3 (rle_write [[5], [5], [7]]) = some [[5], [5], [7]] :=
  rle_roundtrip 1 [[5], [5], [7]] (by decide) (by decide) (by decide) (by decide)

/-! ## C8: every encoder output is a clean sequence of packets -/

lemma flatten_length (bytes : Nat) :
    ∀ (L : List (List Nat)), (∀ r ∈ L, r.length = bytes) →
      L.flatten.length = L.length * bytes := by
  intro L
  induction L with
  | nil => intro h; simp
  | cons a T ih =>
    intro h
    have ha := h a (List.mem_cons_self a T)
    have hT : ∀ r ∈ T, r.length = bytes := fun r hr => h r (List.mem_cons_of_mem a hr)
    simp only [List.flatten_cons, List.length_append, List.length_cons, ha, ih hT]
    ring

lemma packetsOk_rep (bytes c : Nat) (rec s : List Nat)
    (hc1 : 128 ≤ c) (hc2 : c ≤ 255) (hr : rec.length = bytes) :
    packetsOk bytes (c :: (rec ++ s)) = packetsOk bytes s := by
  have hby : bytes ≤ (rec ++ s).length := by
    rw [List.length_append, hr]; omega
  simp only [packetsOk]
  rw [if_pos hc1, List.drop_left' hr, decide_eq_true hc2, decide_eq_true hby]
  simp

lemma packetsOk_dir (bytes : Nat) (L : List (List Nat)) (s : List Nat)
    (h1 : 1 ≤ L.length) (h128 : L.length ≤ 128) (hL : ∀ r ∈ L, r.length = bytes) :
    packetsOk bytes ((L.length - 1) :: (L.flatten ++ s)) = packetsOk bytes s := by
  have hflen : L.flatten.length = L.length * bytes := flatten_length bytes L hL
  have hc : ¬ 128 ≤ L.length - 1 := by omega
  have hcount : L.length - 1 + 1 = L.length := by omega
  have hby : L.length * bytes ≤ (L.flatten ++ s).length := by
    rw [List.length_append, hflen]
    exact Nat.le_add_right _ _
  have hdrop : (L.flatten ++ s).drop (L.length * bytes) = s := by
    apply List.drop_left'
    rw [hflen]
  simp only [packetsOk]
  rw [if_neg hc, hcount, decide_eq_true hby, hdrop]
  simp

lemma headD_len (bytes : Nat) (pend : List (List Nat)) (prev : List Nat)
    (hpl : ∀ r ∈ pend, r.length = bytes) (hprev : prev.length = bytes) :
    ((pend ++ [prev]).headD []).length = bytes := by
  cases pend with
  | nil => simpa using hprev
  | cons a T => simpa using hpl a (List.mem_cons_self a T)

lemma packetsOk_writeGo (bytes : Nat) :
    ∀ (rest : List (List Nat)) (rep dir : Nat) (pend : List (List Nat)) (prev : List Nat),
    (∀ r ∈ pend, r.length = bytes) → prev.length = bytes → (∀ r ∈ rest, r.length = bytes) →
    pend.length = rep + dir → (rep = 0 ∨ dir = 0) → rep ≤ 127 → dir ≤ 127 →
    packetsOk bytes (rleWriteGo rep dir pend prev rest) = true := by
  intro rest
  induction rest with
  | nil =>
    intro rep dir pend prev hpl hprev hrl hlen hrd hr7 hd7
    by_cases hrep : rep = 0
    · subst hrep
      rw [rleWriteGo_nil_dir 0 dir pend prev rfl]
      have hplp : ∀ r ∈ pend ++ [prev], r.length = bytes := by
        intro r hr
        rcases List.mem_append.1 hr with h | h
        · exact hpl r h
        · simp at h; subst h; exact hprev
      have htake : (pend ++ [prev]).take (dir + 1) = pend ++ [prev] := by
        apply List.take_of_length_le
        simp only [List.length_append, List.length_singleton]; omega
      rw [htake]
      have hpkt := packetsOk_dir bytes (pend ++ [prev]) [] (by simp)
        (by simp only [List.length_append, List.length_singleton] <;> omega) hplp
      rw [List.append_nil] at hpkt
      rw [show (dir : Nat) = (pend ++ [prev]).length - 1 from by
        simp only [List.length_append, List.length_singleton] <;> omega]
      rw [hpkt]
      simp [packetsOk]
    · rw [rleWriteGo_nil_rep rep dir pend prev hrep]
      have hhd := headD_len bytes pend prev hpl hprev
      have hpkt := packetsOk_rep bytes (128 + rep) ((pend ++ [prev]).headD []) []
        (by omega) (by omega) hhd
      rw [List.append_nil] at hpkt
      rw [hpkt]
      simp [packetsOk]
  | cons q rest ih =>
    intro rep dir pend prev hpl hprev hrl hlen hrd hr7 hd7
    have hq2 : q.length = bytes := hrl q (List.mem_cons_self q rest)
    have hrl2 : ∀ r ∈ rest, r.length = bytes := fun r hr => hrl r (List.mem_cons_of_mem q hr)
    have hplprev : ∀ r ∈ pend ++ [prev], r.length = bytes := by
      intro r hr
      rcases List.mem_append.1 hr with h | h
      · exact hpl r h
      · simp at h; subst h; exact hprev
    by_cases hq : q = prev
    · by_cases hdir : dir = 0
      · by_cases h128 : rep + 1 = 128
        · rw [rleWriteGo_cons_same_128 rep dir pend prev q rest hq hdir h128]
          have hhd := headD_len bytes (pend ++ [prev]) q hplprev hq2
          rw [List.cons_append]
          rw [packetsOk_rep bytes 255 ((pend ++ [prev] ++ [q]).headD [])
            (rleWriteGo 0 0 [] q rest) (by omega) (by omega) hhd]
          exact ih 0 0 [] q (by simp) hq2 hrl2 (by simp) (Or.inl rfl) (by omega) (by omega)
        · rw [rleWriteGo_cons_same rep dir pend prev q rest hq hdir h128]
          exact ih (rep + 1) dir (pend ++ [prev]) q hplprev hq2 hrl2
            (by simp only [List.length_append, List.length_singleton] <;> omega)
            (Or.inr hdir) (by omega) (by omega)
      · have hrep : rep = 0 := by rcases hrd with h | h <;> omega
        have hpd : pend.length = dir := by omega
        rw [rleWriteGo_cons_same_dir rep dir pend prev q rest hq hdir]
        have htake : (pend ++ [prev]).take dir = pend := List.take_left' hpd
        rw [htake, List.cons_append]
        rw [show dir - 1 = pend.length - 1 from by omega]
        rw [packetsOk_dir bytes pend (rleWriteGo 1 0 [prev] q rest)
          (by omega) (by omega) hpl]
        exact ih 1 0 [prev] q
          (by intro r hr; simp at hr; subst hr; exact hprev)
          hq2 hrl2 (by simp) (Or.inr rfl) (by omega) (by omega)
    · by_cases hrep : rep = 0
      · by_cases h128 : dir + 1 = 128
        · rw [rleWriteGo_cons_diff_128 rep dir pend prev q rest hq hrep h128]
          have hlen2 : (pend ++ [prev]).length = 128 := by
            simp only [List.length_append, List.length_singleton]; omega
          have htake : (pend ++ [prev] ++ [q]).take 128 = pend ++ [prev] :=
            List.take_left' hlen2
          rw [htake, List.cons_append]
          rw [show (127 : Nat) = (pend ++ [prev]).length - 1 from by omega]
          rw [packetsOk_dir bytes (pend ++ [prev]) (rleWriteGo 0 0 [] q rest)
            (by omega) (by omega) hplprev]
          exact ih 0 0 [] q (by simp) hq2 hrl2 (by simp) (Or.inl rfl) (by omega) (by omega)
        · rw [rleWriteGo_cons_diff rep dir pend prev q rest hq hrep h128]
          exact ih rep (dir + 1) (pend ++ [prev]) q hplprev hq2 hrl2
            (by simp only [List.length_append, List.length_singleton] <;> omega)
            (Or.inl hrep) (by omega) (by omega)
      · rw [rleWriteGo_cons_diff_rep rep dir pend prev q rest hq hrep]
        have hhd := headD_len bytes pend prev hpl hprev
        rw [List.cons_append]
        rw [packetsOk_rep bytes (128 + rep) ((pend ++ [prev]).headD [])
          (rleWriteGo 0 0 [] q rest) (by omega) (by omega) hhd]
        exact ih 0 0 [] q (by simp) hq2 hrl2 (by simp) (Or.inl rfl) (by omega) (by omega)

/-- C8: the stream rle_write emits for any nonempty row of fixed-size
records parses as a sequence of whole packets: every control byte
declares a pixel count in 1..128 (c - 127 with 128 <= c <= 255 for a
repeat packet, c + 1 with c <= 127 for a direct packet), a repeat packet
is one control byte plus exactly one whole record, and a direct packet
of declared count n is one control byte plus exactly n whole records -
no packet boundary splits a record. -/
theorem rle_write_packets_ok (bytes : Nat) (row : List (List Nat))
    (hb : 1 ≤ bytes) (hw : 1 ≤ row.length) (hlen : ∀ r ∈ row, r.length = bytes) :
    packetsOk bytes (rle_write row) = true := by
  obtain ⟨p, rest, rfl⟩ : ∃ p rest, row = p :: rest := by
    cases row with
    | nil => simp at hw
    | cons p rest => exact ⟨p, rest, rfl⟩
  have hp : p.length = bytes := hlen p (List.mem_cons_self p rest)
  have hrl : ∀ r ∈ rest, r.length = bytes := fun r hr => hlen r (List.mem_cons_of_mem p hr)
  simp only [rle_write]
  exact packetsOk_writeGo bytes rest 0 0 [] p (by simp) hp hrl (by simp)
    (Or.inl rfl) (by omega) (by omega)

/-- C8 witness on a row of 2-byte records. -/
theorem rle_write_packets_ok_witness :
    packetsOk 2 (rle_write [[1, 2], [1, 2], [3, 4]]) = true :=
  rle_write_packets_ok 2 [[1, 2], [1, 2], [3, 4]] (by decide) (by decide) (by decide)

/-! ## C2: truncation is ignored by read_line / ReadImage -/

lemma rleReadGo_shape (bytes : Nat) :
    ∀ (n : Nat) (sr sd : Nat) (ss stream : List Nat),
    ss.length = bytes →
    (∀ r ∈ (rleReadGo bytes ⟨sr, sd, ss⟩ stream n).out, r.length = bytes) ∧
    (rleReadGo bytes ⟨sr, sd, ss⟩ stream n).out.length ≤ n ∧
    (rleReadGo bytes ⟨sr, sd, ss⟩ stream n).st.sample.length = bytes := by
  intro n
  induction n with
  | zero =>
    intro sr sd ss stream hs
    exact ⟨by simp [rleReadGo], by simp [rleReadGo], by simpa [rleReadGo] using hs⟩
  | succ n ih =>
    intro sr sd ss stream hs
    by_cases h0 : sr = 0 ∧ sd = 0
    · cases stream with
      | nil =>
        have hstep : rleReadGo bytes ⟨sr, sd, ss⟩ [] (n + 1)
            = ⟨true, [], ⟨sr, sd, ss⟩, []⟩ := by
          simp only [rleReadGo]
          rw [if_pos h0]
        rw [hstep]
        exact ⟨by simp, by simp, by simpa using hs⟩
      | cons head tail =>
        by_cases hh : 128 ≤ head
        · by_cases hby : bytes ≤ tail.length
          · have hstep : rleReadGo bytes ⟨sr, sd, ss⟩ (head :: tail) (n + 1)
                = ⟨(rleReadGo bytes ⟨head - 128, 0, tail.take bytes⟩ (tail.drop bytes) n).eof,
                   tail.take bytes ::
                     (rleReadGo bytes ⟨head - 128, 0, tail.take bytes⟩ (tail.drop bytes) n).out,
                   (rleReadGo bytes ⟨head - 128, 0, tail.take bytes⟩ (tail.drop bytes) n).st,
                   (rleReadGo bytes ⟨head - 128, 0, tail.take bytes⟩ (tail.drop bytes) n).rest⟩ := by
              simp only [rleReadGo]
              rw [if_pos h0, if_pos hh, if_pos hby]
            have htl : (tail.take bytes).length = bytes := by
              rw [List.length_take]; omega
            obtain ⟨ih1, ih2, ih3⟩ := ih (head - 128) 0 (tail.take bytes) (tail.drop bytes) htl
            rw [hstep]
            refine ⟨?_, by simp only [List.length_cons] <;> omega, by simpa using ih3⟩
            intro r hr
            simp only [List.mem_cons] at hr
            rcases hr with h | h
            · rw [h]; exact htl
            · exact ih1 r h
          · have hstep : rleReadGo bytes ⟨sr, sd, ss⟩ (head :: tail) (n + 1)
                = ⟨true, [], ⟨head - 127, 0, ss⟩, tail.drop bytes⟩ := by
              simp only [rleReadGo]
              rw [if_pos h0, if_pos hh, if_neg hby]
            rw [hstep]
            exact ⟨by simp, by simp, by simpa using hs⟩
        · by_cases hby : bytes ≤ tail.length
          · have hstep : rleReadGo bytes ⟨sr, sd, ss⟩ (head :: tail) (n + 1)
                = ⟨(rleReadGo bytes ⟨0, head, ss⟩ (tail.drop bytes) n).eof,
                   tail.take bytes :: (rleReadGo bytes ⟨0, head, ss⟩ (tail.drop bytes) n).out,
                   (rleReadGo bytes ⟨0, head, ss⟩ (tail.drop bytes) n).st,
                   (rleReadGo bytes ⟨0, head, ss⟩ (tail.drop bytes) n).rest⟩ := by
              simp only [rleReadGo]
              rw [if_pos h0, if_neg hh, if_pos hby]
            have htl : (tail.take bytes).length = bytes := by
              rw [List.length_take]; omega
            obtain ⟨ih1, ih2, ih3⟩ := ih 0 head ss (tail.drop bytes) hs
            rw [hstep]
            refine ⟨?_, by simp only [List.length_cons] <;> omega, by simpa using ih3⟩
            intro r hr
            simp only [List.mem_cons] at hr
            rcases hr with h | h
            · rw [h]; exact htl
            · exact ih1 r h
          · have hstep : rleReadGo bytes ⟨sr, sd, ss⟩ (head :: tail) (n + 1)
                = ⟨true, [], ⟨0, head + 1, ss⟩, tail.drop bytes⟩ := by
              simp only [rleReadGo]
              rw [if_pos h0, if_neg hh, if_neg hby]
            rw [hstep]
            exact ⟨by simp, by simp, by simpa using hs⟩
    · by_cases hrep : 0 < sr
      · have hstep : rleReadGo bytes ⟨sr, sd, ss⟩ stream (n + 1)
            = ⟨(rleReadGo bytes ⟨sr - 1, sd, ss⟩ stream n).eof,
               ss :: (rleReadGo bytes ⟨sr - 1, sd, ss⟩ stream n).out,
               (rleReadGo bytes ⟨sr - 1, sd, ss⟩ stream n).st,
               (rleReadGo bytes ⟨sr - 1, sd, ss⟩ stream n).rest⟩ := by
          simp only [rleReadGo]
          rw [if_neg h0, if_pos hrep]
        obtain ⟨ih1, ih2, ih3⟩ := ih (sr - 1) sd ss stream hs
        rw [hstep]
        refine ⟨?_, by simp only [List.length_cons] <;> omega, by simpa using ih3⟩
        intro r hr
        simp only [List.mem_cons] at hr
        rcases hr with h | h
        · rw [h]; exact hs
        · exact ih1 r h
      · by_cases hby : bytes ≤ stream.length
        · have hstep : rleReadGo bytes ⟨sr, sd, ss⟩ stream (n + 1)
              = ⟨(rleReadGo bytes ⟨sr, sd - 1, ss⟩ (stream.drop bytes) n).eof,
                 stream.take bytes ::
                   (rleReadGo bytes ⟨sr, sd - 1, ss⟩ (stream.drop bytes) n).out,
                 (rleReadGo bytes ⟨sr, sd - 1, ss⟩ (stream.drop bytes) n).st,
                 (rleReadGo bytes ⟨sr, sd - 1, ss⟩ (stream.drop bytes) n).rest⟩ := by
            simp only [rleReadGo]
            rw [if_neg h0, if_neg hrep, if_pos hby]
          have htl : (stream.take bytes).length = bytes := by
            rw [List.length_take]; omega
          obtain ⟨ih1, ih2, ih3⟩ := ih sr (sd - 1) ss (stream.drop bytes) hs
          rw [hstep]
          refine ⟨?_, by simp only [List.length_cons] <;> omega, by simpa using ih3⟩
          intro r hr
          simp only [List.mem_cons] at hr
          rcases hr with h | h
          · rw [h]; exact htl
          · exact ih1 r h
        · have hstep : rleReadGo bytes ⟨sr, sd, ss⟩ stream (n + 1)
              = ⟨true, [], ⟨sr, sd, ss⟩, stream.drop bytes⟩ := by
            simp only [rleReadGo]
            rw [if_neg h0, if_neg hrep, if_neg hby]
          rw [hstep]
          exact ⟨by simp, by simp, by simpa using hs⟩

/-- C2 counterexample: a 2 by 2 RLE grayscale stream truncated after the
first row.  The RLE decoder does report EOF on the second row (second
conjunct), but read_line discards that status, so the row loop
completes and delivers both rows - the second one made of the stale
buffer content - instead of failing as a whole as the claim states. -/
theorem tga_truncation_counterexample :
    readRows 1 2 true 2 ⟨0, 0, [0]⟩ [0, 0] [129, 7] = [[7, 7], [7, 7]] ∧
    (rleReadGo 1 ⟨0, 0, [7]⟩ [] 2).eof = true := by
  constructor <;> rfl

/-- C2 amended: rle_read signals end-of-stream by its EOF return value
(and the raw path by the short fread count), but read_line ignores both,
so the ReadImage row loop never aborts: it always delivers exactly
height rows of the full row size, whatever the stream holds. -/
theorem tga_truncation_not_fatal (bytes width : Nat) (compRLE : Bool) :
    ∀ (h : Nat) (st : RleState) (buf stream : List Nat),
    st.sample.length = bytes → buf.length = width * bytes →
    (readRows bytes width compRLE h st buf stream).length = h ∧
    ∀ r ∈ readRows bytes width compRLE h st buf stream, r.length = width * bytes := by
  intro h
  induction h with
  | zero =>
    intro st buf stream hs hbuf
    exact ⟨rfl, by simp [readRows]⟩
  | succ h ih =>
    intro st buf stream hs hbuf
    obtain ⟨sr, sd, ss⟩ := st
    have hrow : (read_line bytes width compRLE ⟨sr, sd, ss⟩ buf stream).row.length
          = width * bytes ∧
        (read_line bytes width compRLE ⟨sr, sd, ss⟩ buf stream).st.sample.length = bytes := by
      unfold read_line
      by_cases hc : compRLE
      · rw [if_pos hc]
        obtain ⟨h1, h2, h3⟩ := rleReadGo_shape bytes width sr sd ss stream hs
        have hfl := flatten_length bytes (rleReadGo bytes ⟨sr, sd, ss⟩ stream width).out h1
        refine ⟨?_, h3⟩
        simp only [List.length_append, List.length_drop]
        rw [hfl, hbuf]
        exact Nat.add_sub_cancel' (Nat.mul_le_mul_right bytes h2)
      · rw [if_neg hc]
        refine ⟨?_, hs⟩
        simp only [List.length_append, List.length_drop, List.length_take]
        omega
    have hmain := ih (read_line bytes width compRLE ⟨sr, sd, ss⟩ buf stream).st
      (read_line bytes width compRLE ⟨sr, sd, ss⟩ buf stream).row
      (read_line bytes width compRLE ⟨sr, sd, ss⟩ buf stream).rest
      hrow.2 hrow.1
    constructor
    · simp only [readRows, List.length_cons]
      rw [hmain.1]
    · intro r hr
      simp only [readRows, List.mem_cons] at hr
      rcases hr with h1 | h1
      · rw [h1]; exact hrow.1
      · exact hmain.2 r h1

/-- C2 amended witness: an empty stream still yields two full rows. -/
theorem tga_truncation_not_fatal_witness :
    (readRows 1 2 true 2 ⟨0, 0, [0]⟩ [0, 0] []).length = 2 ∧
    ∀ r ∈ readRows 1 2 true 2 ⟨0, 0, [0]⟩ [0, 0] [], r.length = 2 * 1 :=
  tga_truncation_not_fatal 1 2 true 2 ⟨0, 0, [0]⟩ [0, 0] [] (by decide) (by decide)
